import Mathlib

/-!
Shallow embedding of the correspondence-extraction subsystem of the
`video2mesh` repository (`Video2mesh/pose_refinement.py` and
`Video2mesh/geometry.py`), together with theorems settling the spec claims.

Machine floats are modelled by exact rationals, depth maps by total
functions from integer pixel coordinates to rationals, and the external
vision-library collaborators (SIFT detection, FLANN `knnMatch`,
`cv2.findHomography`) by abstract inputs: detected keypoint lists, a
candidate-match list, and a RANSAC inlier mask.
-/

namespace Video2mesh

/-- Frame-pair sampling strategies (`FrameSamplingMode` in `pose_refinement.py`). -/
inductive FrameSamplingMode where
  | exhaustive
  | consecutive
  | hierarchical
  deriving DecidableEq

/-- `PoseOptimiser.sample_frame_pairs`: select the list of frame-index pairs to
examine, given the dataset frame count (`self.dataset.num_frames`) and the
sampling mode.  Python `range(lo, hi)` is `List.range'` with step 1 and
`range(0, n, step)` is `List.range' 0 ⌈n / step⌉ step`; the `continue` on
`end >= num_frames` is the `filterMap` guard. -/
def sampleFramePairs (numFrames : ℕ) (mode : FrameSamplingMode) : List (ℕ × ℕ) :=
  match mode with
  | .exhaustive =>
      (List.range numFrames).flatMap fun i =>
        (List.range' (i + 1) (numFrames - (i + 1))).map fun j => (i, j)
  | .consecutive =>
      (List.range (numFrames - 1)).map fun i => (i, i + 1)
  | .hierarchical =>
      let maxLevel := Nat.log 2 (numFrames - 1)
      (List.range (maxLevel + 1)).flatMap fun level =>
        let step := 2 ^ level
        (List.range' 0 ((numFrames + step - 1) / step) step).filterMap fun start =>
          if start + step < numFrames then some (start, start + step) else none

/-- Python's built-in `round` (round half to even), used for the depth-map
lookups `depth_maps[i][round(point[1]), round(point[0])]` and for `np.round`. -/
def pyround (q : ℚ) : ℤ :=
  if q - ⌊q⌋ < 1 / 2 then ⌊q⌋
  else if 1 / 2 < q - ⌊q⌋ then ⌊q⌋ + 1
  else if ⌊q⌋ % 2 = 0 then ⌊q⌋ else ⌊q⌋ + 1

/-- One `cv2.DMatch` as consumed by `_filter_matches`: indices into the two
keypoint lists and the descriptor distance. -/
structure DMatch where
  queryIdx : ℕ
  trainIdx : ℕ
  distance : ℚ

/-- The 5-tuple returned by `FeatureExtractor._filter_matches`. -/
structure FilterResult where
  points_i : List (ℚ × ℚ)
  points_j : List (ℚ × ℚ)
  depth_i : List ℚ
  depth_j : List ℚ
  matches_mask : List (List ℕ)

/-- `FeatureExtractor._filter_matches` for frames `i`, `j`: Lowe's ratio test
followed by the zero-depth check.  Keypoints are their `pt` coordinates
`(x, y)`; a depth map is a total function of `(row, column)`. -/
def filterMatches (depthMapI depthMapJ : ℤ → ℤ → ℚ)
    (keyPointsI keyPointsJ : List (ℚ × ℚ)) : List (DMatch × DMatch) → FilterResult
  | [] => ⟨[], [], [], [], []⟩
  | (m, n) :: rest =>
    let r := filterMatches depthMapI depthMapJ keyPointsI keyPointsJ rest
    if m.distance > 7 / 10 * n.distance then
      { r with matches_mask := [0, 0] :: r.matches_mask }
    else
      let point_i := keyPointsI.getD m.queryIdx (0, 0)
      let the_depth_i := depthMapI (pyround point_i.2) (pyround point_i.1)
      let point_j := keyPointsJ.getD m.trainIdx (0, 0)
      let the_depth_j := depthMapJ (pyround point_j.2) (pyround point_j.1)
      if the_depth_i = 0 ∨ the_depth_j = 0 then
        { r with matches_mask := [0, 0] :: r.matches_mask }
      else
        ⟨point_i :: r.points_i, point_j :: r.points_j,
         the_depth_i :: r.depth_i, the_depth_j :: r.depth_j,
         [1, 0] :: r.matches_mask⟩

/-- The acceptance condition of `_filter_matches` for one candidate match:
the ratio test passes and neither looked-up depth is zero. -/
def keepMatch (depthMapI depthMapJ : ℤ → ℤ → ℚ)
    (keyPointsI keyPointsJ : List (ℚ × ℚ)) (mn : DMatch × DMatch) : Bool :=
  let point_i := keyPointsI.getD mn.1.queryIdx (0, 0)
  let point_j := keyPointsJ.getD mn.1.trainIdx (0, 0)
  decide (mn.1.distance ≤ 7 / 10 * mn.2.distance ∧
    depthMapI (pyround point_i.2) (pyround point_i.1) ≠ 0 ∧
    depthMapJ (pyround point_j.2) (pyround point_j.1) ≠ 0)

/-- NumPy boolean-mask indexing `xs[is_inlier]` as used in
`_filter_matches_ransac`. -/
def filterByMask {α : Type} (mask : List Bool) (xs : List α) : List α :=
  (xs.zip mask).filterMap fun xb => if xb.2 then some xb.1 else none

/-- `FeatureExtractor._filter_matches_ransac`, with the homography inlier mask
computed by `cv2.findHomography` supplied as the abstract input `is_inlier`.
The source also un-marks outliers in `matches_mask`, which only corrects the
diagnostic visualisation and never feeds into the returned point and depth
lists; the returned mask is carried through unmodelled. -/
def filterMatchesRansac (is_inlier : List Bool) (r : FilterResult) : FilterResult :=
  { r with
    points_i := filterByMask is_inlier r.points_i
    points_j := filterByMask is_inlier r.points_j
    depth_i := filterByMask is_inlier r.depth_i
    depth_j := filterByMask is_inlier r.depth_j }

/-- The `FeatureData` namedtuple for one frame of one accepted pair: frame
index, match coordinates, depth at those coordinates. -/
structure FeatureData where
  index : ℕ
  points : List (ℚ × ℚ)
  depth : List ℚ

/-- The `FeatureSet` namedtuple holding the `FeatureData` of both frames of a
pair. -/
structure FeatureSet where
  frame_i : FeatureData
  frame_j : FeatureData

/-- `FeatureExtractor._get_image_features` for the frame pair `(i, j)`.  The
detected keypoints (`sift.detectAndCompute`), candidate matches
(`matcher.knnMatch`) and RANSAC inlier mask are inputs supplied by the
external vision library. -/
def getImageFeatures (min_features : ℕ) (depthMapI depthMapJ : ℤ → ℤ → ℚ)
    (keyPointsI keyPointsJ : List (ℚ × ℚ)) (knn_matches : List (DMatch × DMatch))
    (is_inlier : List Bool) (i j : ℕ) : Option FeatureSet :=
  if min keyPointsI.length keyPointsJ.length < min_features then none
  else
    let r := filterMatches depthMapI depthMapJ keyPointsI keyPointsJ knn_matches
    if r.points_i.length < min_features then none
    else
      let r2 := filterMatchesRansac is_inlier r
      if r2.points_i.length < min_features then none
      else some ⟨⟨i, r2.points_i, r2.depth_i⟩, ⟨j, r2.points_j, r2.depth_j⟩⟩

/-- The flat aggregate output of `extract_feature_points`: `index_i`,
`points_i`, `depth_i` for one side (the index repeated per correspondence). -/
structure FeatureDataList where
  index : List ℕ
  points : List (ℚ × ℚ)
  depth : List ℚ

/-- The aggregate `FeatureSet` built by `extract_feature_points`. -/
structure FeatureSetList where
  frame_i : FeatureDataList
  frame_j : FeatureDataList

/-- The accumulation loop of `FeatureExtractor.extract_feature_points` over
the per-pair results, skipping `None` results and counting
`num_good_frame_pairs`. -/
def accumulateFeatureSets : List (Option FeatureSet) → FeatureSetList × ℕ
  | [] => (⟨⟨[], [], []⟩, ⟨[], [], []⟩⟩, 0)
  | none :: rest => accumulateFeatureSets rest
  | some fs :: rest =>
    let acc := accumulateFeatureSets rest
    let num_points := fs.frame_i.points.length
    (⟨⟨List.replicate num_points fs.frame_i.index ++ acc.1.frame_i.index,
       fs.frame_i.points ++ acc.1.frame_i.points,
       fs.frame_i.depth ++ acc.1.frame_i.depth⟩,
      ⟨List.replicate num_points fs.frame_j.index ++ acc.1.frame_j.index,
       fs.frame_j.points ++ acc.1.frame_j.points,
       fs.frame_j.depth ++ acc.1.frame_j.depth⟩⟩, acc.2 + 1)

/-- The per-frame and per-pair data `extract_feature_points` consumes: depth
maps, detected keypoints, matcher output and RANSAC inlier masks. -/
structure ExtractionInputs where
  depthMap : ℕ → ℤ → ℤ → ℚ
  keyPoints : ℕ → List (ℚ × ℚ)
  knn_matches : ℕ → ℕ → List (DMatch × DMatch)
  is_inlier : ℕ → ℕ → List Bool

/-- The per-pair result `_get_image_features` produces inside
`extract_feature_points` for the frame pair `p`. -/
def pairResult (min_features : ℕ) (inputs : ExtractionInputs) (p : ℕ × ℕ) :
    Option FeatureSet :=
  getImageFeatures min_features (inputs.depthMap p.1) (inputs.depthMap p.2)
    (inputs.keyPoints p.1) (inputs.keyPoints p.2) (inputs.knn_matches p.1 p.2)
    (inputs.is_inlier p.1 p.2) p.1 p.2

/-- `FeatureExtractor.extract_feature_points`: map `_get_image_features` over
`self.frame_pairs` (`tqdm_imap` preserves input order) and accumulate. -/
def extractFeaturePoints (min_features : ℕ) (inputs : ExtractionInputs)
    (frame_pairs : List (ℕ × ℕ)) : FeatureSetList × ℕ :=
  accumulateFeatureSets (frame_pairs.map (pairResult min_features inputs))

/-- The sequence of accepted per-pair feature sets, in pair order (the
`feature_set` values that are not `None` in the accumulation loop). -/
def acceptedResults (min_features : ℕ) (inputs : ExtractionInputs)
    (frame_pairs : List (ℕ × ℕ)) : List FeatureSet :=
  (frame_pairs.map (pairResult min_features inputs)).filterMap id

/-- Configuration held by a successfully constructed `FeatureExtractor`. -/
structure FeatureExtractorConfig where
  min_features : ℤ
  max_features : Option ℤ

/-- The validation in `FeatureExtractor.__init__`: raises `ValueError` (the
spec's `ConfigurationError`) when `min_features < 5`, and when `max_features`
is not `None` and `max_features <= min_features`.  The `warnings.warn` calls
change no state and are not modelled; integer-ness is enforced by the type. -/
def mkFeatureExtractor (min_features : ℤ) (max_features : Option ℤ) :
    Except String FeatureExtractorConfig :=
  if min_features < 5 then
    .error "min_features must be a positive integer that is at least 5"
  else
    match max_features with
    | some mf =>
      if mf ≤ min_features then
        .error "max_features must be a positive integer greater than min_features"
      else .ok ⟨min_features, some mf⟩
    | none => .ok ⟨min_features, none⟩

/-- The `coverage` statistic of `FeatureExtractor._print_results_stats`:
`len(set(index_i + index_j)) / num_frames`. -/
def coverage (index_i index_j : List ℕ) (num_frames : ℕ) : ℚ :=
  ((index_i ++ index_j).dedup.length : ℚ) / (num_frames : ℚ)

/-- The chunk-collecting loop of `_print_results_stats`: scan the frame
indices in order, extending the current `chunk` on covered indices and
flushing it to `chunks` when a gap is hit, with a final flush. -/
def chunksAux (covered : ℕ → Bool) : List ℕ → List (List ℕ) → List ℕ → List (List ℕ)
  | [], chunks, chunk => if chunk.isEmpty then chunks else chunks ++ [chunk]
  | f :: rest, chunks, chunk =>
    if covered f then chunksAux covered rest chunks (chunk ++ [f])
    else if chunk.isEmpty then chunksAux covered rest chunks []
    else chunksAux covered rest (chunks ++ [chunk]) []

/-- The groups of consecutive covered frame indices computed by
`_print_results_stats` over `range(num_frames)`. -/
def consecutiveGroups (covered : ℕ → Bool) (num_frames : ℕ) : List (List ℕ) :=
  chunksAux covered (List.range num_frames) [] []

/-- The two statistics logged by `FeatureExtractor._print_results_stats`:
the frame-coverage fraction and the number of groups of consecutive covered
frames (a frame is covered when it appears in `set(index_i + index_j)`). -/
def printResultsStats (index_i index_j : List ℕ) (num_frames : ℕ) : ℚ × ℕ :=
  (coverage index_i index_j num_frames,
   (consecutiveGroups (fun k => decide (k ∈ index_i ++ index_j)) num_frames).length)

/-- Specification-side count of maximal runs of `true` in a Boolean sequence;
`inRun` records whether a run is open at the current position. -/
def runCount (inRun : Bool) : List Bool → ℕ
  | [] => if inRun then 1 else 0
  | b :: rest =>
    if b then runCount true rest
    else (if inRun then 1 else 0) + runCount false rest

/-- The camera-space coordinates `K @ (R @ points.T + t)` of `world2image` in
`geometry.py`, for a single world point (one column of the stacked array
computation). -/
def camSpace (K R : Matrix (Fin 3) (Fin 3) ℚ) (t : Fin 3 → ℚ) (p : Fin 3 → ℚ) :
    Fin 3 → ℚ :=
  K.mulVec (R.mulVec p + t)

/-- `world2image` in `geometry.py` for a single world point: the projected
pixel coordinates `camera_space_coords[0:2] / depth / scale_factor` and the
recovered depth `camera_space_coords[2]`.  `intOutput` models passing an
integer `dtype`, in which case `np.round` (half to even) is applied. -/
def world2image (K R : Matrix (Fin 3) (Fin 3) ℚ) (t : Fin 3 → ℚ) (scale_factor : ℚ)
    (intOutput : Bool) (p : Fin 3 → ℚ) : (Fin 2 → ℚ) × ℚ :=
  let c := camSpace K R t p
  let px : Fin 2 → ℚ := ![c 0 / c 2 / scale_factor, c 1 / c 2 / scale_factor]
  (if intOutput then fun k => ((pyround (px k) : ℤ) : ℚ) else px, c 2)

/-- The exact inverse of a 3×3 rational matrix via the adjugate formula,
standing in for `np.linalg.inv` (executable, unlike `Matrix.inv`). -/
def matInv (K : Matrix (Fin 3) (Fin 3) ℚ) : Matrix (Fin 3) (Fin 3) ℚ :=
  K.det⁻¹ • K.adjugate

/-- `image2world` in `geometry.py` for a single image point with known depth:
homogenise the scaled pixel coordinates, apply `inv(K)`, scale by the depth,
subtract `t` and apply `R.T`. -/
def image2world (K R : Matrix (Fin 3) (Fin 3) ℚ) (t : Fin 3 → ℚ) (scale_factor : ℚ)
    (uv : Fin 2 → ℚ) (depth : ℚ) : Fin 3 → ℚ :=
  R.transpose.mulVec
    (depth • (matInv K).mulVec ![uv 0 * scale_factor, uv 1 * scale_factor, 1] - t)

/-- `world2image` over an `(?, 3)` array of points: the `(?, 2)` pixel array
and the per-point depth array (the arrays are columnwise parallel). -/
def world2imageList (K R : Matrix (Fin 3) (Fin 3) ℚ) (t : Fin 3 → ℚ) (scale_factor : ℚ)
    (intOutput : Bool) (ps : List (Fin 3 → ℚ)) : List (Fin 2 → ℚ) × List ℚ :=
  (ps.map fun p => (world2image K R t scale_factor intOutput p).1,
   ps.map fun p => (world2image K R t scale_factor intOutput p).2)

/-- `image2world` over an `(?, 2)` array of points with their depth array. -/
def image2worldList (K R : Matrix (Fin 3) (Fin 3) ℚ) (t : Fin 3 → ℚ) (scale_factor : ℚ)
    (uvs : List (Fin 2 → ℚ)) (depths : List ℚ) : List (Fin 3 → ℚ) :=
  (uvs.zip depths).map fun ud => image2world K R t scale_factor ud.1 ud.2

/-- Concrete inputs exhibiting negative depths surviving extraction: every
depth-map value is `-1`, five keypoints per frame, five unambiguous candidate
matches, and an all-inlier RANSAC mask. -/
def negativeDepthInputs : ExtractionInputs where
  depthMap := fun _ _ _ => -1
  keyPoints := fun _ => [(0, 0), (1, 0), (2, 0), (3, 0), (4, 0)]
  knn_matches := fun _ _ =>
    [(⟨0, 0, 1⟩, ⟨0, 0, 2⟩), (⟨1, 1, 1⟩, ⟨1, 1, 2⟩), (⟨2, 2, 1⟩, ⟨2, 2, 2⟩),
     (⟨3, 3, 1⟩, ⟨3, 3, 2⟩), (⟨4, 4, 1⟩, ⟨4, 4, 2⟩)]
  is_inlier := fun _ _ => [true, true, true, true, true]

theorem mem_sampleFramePairs_exhaustive {N a b : ℕ} :
    (a, b) ∈ sampleFramePairs N .exhaustive ↔ a < b ∧ b < N := by
  simp only [sampleFramePairs, List.mem_flatMap, List.mem_map, List.mem_range,
    List.mem_range', Prod.mk.injEq]
  constructor
  · rintro ⟨i, hi, j, ⟨k, hk, rfl⟩, rfl, rfl⟩
    omega
  · rintro ⟨hab, hbN⟩
    exact ⟨a, by omega, b, ⟨b - (a + 1), by omega, by omega⟩, rfl, rfl⟩

theorem mem_sampleFramePairs_consecutive {N a b : ℕ} :
    (a, b) ∈ sampleFramePairs N .consecutive ↔ b = a + 1 ∧ a < N - 1 := by
  simp only [sampleFramePairs, List.mem_map, List.mem_range, Prod.mk.injEq]
  constructor
  · rintro ⟨i, hi, rfl, rfl⟩; omega
  · rintro ⟨rfl, ha⟩; exact ⟨a, ha, rfl, rfl⟩

theorem mem_sampleFramePairs_hierarchical {N a b : ℕ} :
    (a, b) ∈ sampleFramePairs N .hierarchical ↔
      ∃ level ≤ Nat.log 2 (N - 1), ∃ k,
        a = k * 2 ^ level ∧ b = a + 2 ^ level ∧ b < N := by
  simp only [sampleFramePairs, List.mem_flatMap, List.mem_range, List.mem_filterMap,
    List.mem_range', Option.ite_none_right_eq_some, Option.some.injEq, Prod.mk.injEq]
  constructor
  · rintro ⟨level, hlevel, start, ⟨i, hi, rfl⟩, hlt, rfl, rfl⟩
    exact ⟨level, by omega, i, by ring, by omega, by omega⟩
  · rintro ⟨level, hlevel, k, rfl, rfl, hbN⟩
    have hstep : 0 < 2 ^ level := Nat.pos_pow_of_pos level (by norm_num)
    refine ⟨level, by omega, k * 2 ^ level, ⟨k, ?_, by ring⟩, hbN, rfl, rfl⟩
    have h1 : (k + 1) * 2 ^ level = k * 2 ^ level + 2 ^ level := by ring
    have h2 : k + 1 ≤ (N + 2 ^ level - 1) / 2 ^ level := by
      rw [Nat.le_div_iff_mul_le hstep]
      omega
    omega

theorem fst_lt_snd_sampleFramePairs {N : ℕ} (mode : FrameSamplingMode) :
    ∀ p ∈ sampleFramePairs N mode, p.1 < p.2 := by
  rintro ⟨a, b⟩ hp
  cases mode with
  | exhaustive => exact (mem_sampleFramePairs_exhaustive.mp hp).1
  | consecutive =>
    have h := mem_sampleFramePairs_consecutive.mp hp
    omega
  | hierarchical =>
    obtain ⟨level, -, k, -, hb, -⟩ := mem_sampleFramePairs_hierarchical.mp hp
    have : 0 < 2 ^ level := Nat.pos_pow_of_pos level (by norm_num)
    omega

theorem nodup_sampleFramePairs (N : ℕ) (mode : FrameSamplingMode) :
    (sampleFramePairs N mode).Nodup := by
  cases mode with
  | exhaustive =>
    refine List.nodup_flatMap.2 ⟨fun i _ => ?_, ?_⟩
    · exact (List.nodup_range' _ _).map fun a b h => congrArg Prod.snd h
    · refine (List.pairwise_lt_range N).imp ?_
      intro a b hab
      rw [Function.onFun, List.disjoint_left]
      rintro x hx hx'
      simp only [List.mem_map] at hx hx'
      obtain ⟨j, -, rfl⟩ := hx
      obtain ⟨j', -, hj'⟩ := hx'
      have := congrArg Prod.fst hj'
      simp at this
      omega
  | consecutive =>
    exact (List.nodup_range _).map fun a b h => congrArg Prod.fst h
  | hierarchical =>
    refine List.nodup_flatMap.2 ⟨fun level _ => ?_, ?_⟩
    · refine List.Nodup.filterMap ?_ (List.nodup_range' _ _ _ (by positivity))
      intro s s' p hs hs'
      simp only [Option.mem_def, Option.ite_none_right_eq_some, Option.some.injEq] at hs hs'
      obtain ⟨-, rfl⟩ := hs
      obtain ⟨-, h⟩ := hs'
      exact (congrArg Prod.fst h).symm
    · refine (List.pairwise_lt_range _).imp ?_
      intro a b hab
      rw [Function.onFun, List.disjoint_left]
      rintro ⟨x, y⟩ hx hx'
      simp only [List.mem_filterMap, Option.ite_none_right_eq_some,
        Option.some.injEq, Prod.mk.injEq] at hx hx'
      obtain ⟨s, -, -, rfl, hy⟩ := hx
      obtain ⟨s', -, -, h1, h2⟩ := hx'
      have hpow : 2 ^ a < 2 ^ b := Nat.pow_lt_pow_right (by norm_num) hab
      omega

/-- Sum of a function mapped over `List.range` equals the `Finset.range` sum. -/
theorem sum_map_list_range {M : Type} [AddCommMonoid M] (n : ℕ) (f : ℕ → M) :
    ((List.range n).map f).sum = ∑ i ∈ Finset.range n, f i := by
  induction n with
  | zero => simp
  | succ m ih => rw [List.range_succ, Finset.sum_range_succ]; simp [ih]

theorem length_sampleFramePairs_exhaustive (N : ℕ) :
    (sampleFramePairs N .exhaustive).length = N * (N - 1) / 2 := by
  have key : (sampleFramePairs N .exhaustive).length = ∑ i ∈ Finset.range N, (N - 1 - i) := by
    rw [show sampleFramePairs N .exhaustive =
        (List.range N).flatMap fun i =>
          (List.range' (i + 1) (N - (i + 1))).map (fun j => (i, j)) from rfl,
      List.length_flatMap, ← sum_map_list_range N fun i => N - 1 - i]
    congr 1
    apply List.map_congr_left
    intro i hi
    simp only [Function.comp_apply, List.length_map, List.length_range']
    omega
  rw [key, Finset.sum_range_reflect (fun i => i) N]
  have := Finset.sum_range_id_mul_two N
  omega

theorem filterMatches_eq_filter (dI dJ : ℤ → ℤ → ℚ) (kI kJ : List (ℚ × ℚ))
    (ms : List (DMatch × DMatch)) :
    (filterMatches dI dJ kI kJ ms).points_i =
      (ms.filter (keepMatch dI dJ kI kJ)).map (fun mn => kI.getD mn.1.queryIdx (0, 0)) ∧
    (filterMatches dI dJ kI kJ ms).points_j =
      (ms.filter (keepMatch dI dJ kI kJ)).map (fun mn => kJ.getD mn.1.trainIdx (0, 0)) ∧
    (filterMatches dI dJ kI kJ ms).depth_i =
      (ms.filter (keepMatch dI dJ kI kJ)).map (fun mn =>
        dI (pyround (kI.getD mn.1.queryIdx (0, 0)).2)
           (pyround (kI.getD mn.1.queryIdx (0, 0)).1)) ∧
    (filterMatches dI dJ kI kJ ms).depth_j =
      (ms.filter (keepMatch dI dJ kI kJ)).map (fun mn =>
        dJ (pyround (kJ.getD mn.1.trainIdx (0, 0)).2)
           (pyround (kJ.getD mn.1.trainIdx (0, 0)).1)) := by
  induction ms with
  | nil => exact ⟨rfl, rfl, rfl, rfl⟩
  | cons mn rest ih =>
    obtain ⟨m, n⟩ := mn
    obtain ⟨ih1, ih2, ih3, ih4⟩ := ih
    by_cases hratio : m.distance > 7 / 10 * n.distance
    · have hkeep : keepMatch dI dJ kI kJ (m, n) = false := by
        simp only [keepMatch, decide_eq_false_iff_not, not_and]
        intro hle
        exact absurd hratio (not_lt.mpr hle)
      simp only [filterMatches, if_pos hratio, List.filter_cons, hkeep,
        Bool.false_eq_true, if_false]
      exact ⟨ih1, ih2, ih3, ih4⟩
    · by_cases hdepth :
        dI (pyround (kI.getD m.queryIdx (0, 0)).2) (pyround (kI.getD m.queryIdx (0, 0)).1) = 0 ∨
        dJ (pyround (kJ.getD m.trainIdx (0, 0)).2) (pyround (kJ.getD m.trainIdx (0, 0)).1) = 0
      · have hkeep : keepMatch dI dJ kI kJ (m, n) = false := by
          simp only [keepMatch, decide_eq_false_iff_not, not_and]
          intro _ h1 h2
          rcases hdepth with h | h
          · exact h1 h
          · exact h2 h
        simp only [filterMatches, if_neg hratio, if_pos hdepth, List.filter_cons, hkeep,
          Bool.false_eq_true, if_false]
        exact ⟨ih1, ih2, ih3, ih4⟩
      · have hkeep : keepMatch dI dJ kI kJ (m, n) = true := by
          simp only [keepMatch, decide_eq_true_eq]
          push_neg at hdepth
          exact ⟨not_lt.mp hratio, hdepth.1, hdepth.2⟩
        simp only [filterMatches, if_neg hratio, if_neg hdepth, List.filter_cons, hkeep,
          if_true, List.map_cons]
        exact ⟨by rw [ih1], by rw [ih2], by rw [ih3], by rw [ih4]⟩

theorem filterMatches_lengths (dI dJ : ℤ → ℤ → ℚ) (kI kJ : List (ℚ × ℚ))
    (ms : List (DMatch × DMatch)) :
    (filterMatches dI dJ kI kJ ms).points_j.length =
        (filterMatches dI dJ kI kJ ms).points_i.length ∧
    (filterMatches dI dJ kI kJ ms).depth_i.length =
        (filterMatches dI dJ kI kJ ms).points_i.length ∧
    (filterMatches dI dJ kI kJ ms).depth_j.length =
        (filterMatches dI dJ kI kJ ms).points_i.length := by
  obtain ⟨h1, h2, h3, h4⟩ := filterMatches_eq_filter dI dJ kI kJ ms
  rw [h1, h2, h3, h4]
  simp [List.length_map]

theorem filterMatches_depth_ne_zero (dI dJ : ℤ → ℤ → ℚ) (kI kJ : List (ℚ × ℚ))
    (ms : List (DMatch × DMatch)) :
    (∀ d ∈ (filterMatches dI dJ kI kJ ms).depth_i, d ≠ 0) ∧
    (∀ d ∈ (filterMatches dI dJ kI kJ ms).depth_j, d ≠ 0) := by
  obtain ⟨-, -, h3, h4⟩ := filterMatches_eq_filter dI dJ kI kJ ms
  rw [h3, h4]
  constructor <;>
  · intro d hd
    obtain ⟨mn, hmem, rfl⟩ := List.mem_map.mp hd
    have hkeep := List.of_mem_filter hmem
    simp only [keepMatch, decide_eq_true_eq] at hkeep
    first
      | exact hkeep.2.1
      | exact hkeep.2.2

theorem length_filterByMask_eq {α β : Type} (mask : List Bool) (xs : List α) (ys : List β)
    (h : xs.length = ys.length) :
    (filterByMask mask xs).length = (filterByMask mask ys).length := by
  induction mask generalizing xs ys with
  | nil => simp [filterByMask]
  | cons b ms ih =>
    cases xs with
    | nil =>
      cases ys with
      | nil => rfl
      | cons y ys' => simp at h
    | cons x xs' =>
      cases ys with
      | nil => simp at h
      | cons y ys' =>
        simp only [List.length_cons, Nat.add_right_cancel_iff] at h
        have := ih xs' ys' h
        cases b <;> simpa [filterByMask, List.zip_cons_cons, List.filterMap_cons] using this

theorem mem_of_mem_filterByMask {α : Type} {mask : List Bool} {xs : List α} {a : α}
    (h : a ∈ filterByMask mask xs) : a ∈ xs := by
  obtain ⟨⟨x, b⟩, hmem, heq⟩ := List.mem_filterMap.mp h
  have hx := (List.of_mem_zip hmem).1
  split at heq
  · cases Option.some.inj heq
    exact hx
  · exact absurd heq (by simp)

theorem getImageFeatures_some {min_features : ℕ} {dI dJ : ℤ → ℤ → ℚ}
    {kI kJ : List (ℚ × ℚ)} {ms : List (DMatch × DMatch)} {mask : List Bool}
    {i j : ℕ} {fs : FeatureSet}
    (h : getImageFeatures min_features dI dJ kI kJ ms mask i j = some fs) :
    fs.frame_i.index = i ∧ fs.frame_j.index = j ∧
    fs.frame_j.points.length = fs.frame_i.points.length ∧
    fs.frame_i.depth.length = fs.frame_i.points.length ∧
    fs.frame_j.depth.length = fs.frame_i.points.length ∧
    min_features ≤ fs.frame_i.points.length ∧
    (∀ d ∈ fs.frame_i.depth, d ≠ 0) ∧ (∀ d ∈ fs.frame_j.depth, d ≠ 0) := by
  simp only [getImageFeatures] at h
  split at h
  · exact absurd h (by simp)
  · split at h
    · exact absurd h (by simp)
    · split at h
      · exact absurd h (by simp)
      · rename_i hmin hlen hlen2
        cases Option.some.inj h
        obtain ⟨e1, e2, e3⟩ := filterMatches_lengths dI dJ kI kJ ms
        obtain ⟨z1, z2⟩ := filterMatches_depth_ne_zero dI dJ kI kJ ms
        refine ⟨rfl, rfl, ?_, ?_, ?_, not_lt.mp hlen2, ?_, ?_⟩
        · exact length_filterByMask_eq mask _ _ e1
        · exact length_filterByMask_eq mask _ _ e2
        · exact length_filterByMask_eq mask _ _ e3
        · exact fun d hd => z1 d (mem_of_mem_filterByMask hd)
        · exact fun d hd => z2 d (mem_of_mem_filterByMask hd)

theorem accumulateFeatureSets_eq (results : List (Option FeatureSet)) :
    (accumulateFeatureSets results).1.frame_i.index =
      (results.filterMap id).flatMap
        (fun fs => List.replicate fs.frame_i.points.length fs.frame_i.index) ∧
    (accumulateFeatureSets results).1.frame_i.points =
      (results.filterMap id).flatMap (fun fs => fs.frame_i.points) ∧
    (accumulateFeatureSets results).1.frame_i.depth =
      (results.filterMap id).flatMap (fun fs => fs.frame_i.depth) ∧
    (accumulateFeatureSets results).1.frame_j.index =
      (results.filterMap id).flatMap
        (fun fs => List.replicate fs.frame_i.points.length fs.frame_j.index) ∧
    (accumulateFeatureSets results).1.frame_j.points =
      (results.filterMap id).flatMap (fun fs => fs.frame_j.points) ∧
    (accumulateFeatureSets results).1.frame_j.depth =
      (results.filterMap id).flatMap (fun fs => fs.frame_j.depth) ∧
    (accumulateFeatureSets results).2 = (results.filterMap id).length := by
  induction results with
  | nil => exact ⟨rfl, rfl, rfl, rfl, rfl, rfl, rfl⟩
  | cons o rest ih =>
    obtain ⟨ih1, ih2, ih3, ih4, ih5, ih6, ih7⟩ := ih
    cases o with
    | none =>
      simpa [accumulateFeatureSets, List.filterMap_cons] using
        ⟨ih1, ih2, ih3, ih4, ih5, ih6, ih7⟩
    | some fs =>
      simp only [accumulateFeatureSets, List.filterMap_cons, id, List.flatMap_cons,
        List.length_cons]
      exact ⟨by rw [ih1], by rw [ih2], by rw [ih3], by rw [ih4], by rw [ih5],
        by rw [ih6], by rw [ih7]⟩

theorem zip_flatMap_eq {α β γ : Type} (f : α → List β) (g : α → List γ) (l : List α)
    (h : ∀ x ∈ l, (f x).length = (g x).length) :
    (l.flatMap f).zip (l.flatMap g) = l.flatMap fun x => (f x).zip (g x) := by
  induction l with
  | nil => rfl
  | cons x xs ih =>
    simp only [List.flatMap_cons]
    rw [List.zip_append (h x (List.mem_cons_self x xs)),
      ih fun y hy => h y (List.mem_cons_of_mem x hy)]

theorem chunksAux_length (covered : ℕ → Bool) (l : List ℕ) (chunks : List (List ℕ))
    (chunk : List ℕ) :
    (chunksAux covered l chunks chunk).length =
      chunks.length + runCount (!chunk.isEmpty) (l.map covered) := by
  induction l generalizing chunks chunk with
  | nil =>
    simp only [chunksAux, List.map_nil, runCount]
    cases h : chunk.isEmpty <;> simp [h]
  | cons f rest ih =>
    simp only [chunksAux, List.map_cons, runCount]
    cases hc : covered f
    · simp only [Bool.false_eq_true, if_false]
      cases he : chunk.isEmpty
      · rw [if_neg (by simp [he]), ih]
        simp [List.length_append]
        omega
      · rw [if_pos (by simp [he]), ih]
        simp [he]
    · simp only [if_true]
      rw [ih]
      have he : (chunk ++ [f]).isEmpty = false := by cases chunk <;> rfl
      rw [he, Bool.not_false]

theorem consecutiveGroups_length (covered : ℕ → Bool) (N : ℕ) :
    (consecutiveGroups covered N).length = runCount false ((List.range N).map covered) := by
  simpa using chunksAux_length covered (List.range N) [] []

theorem matInv_mul {K : Matrix (Fin 3) (Fin 3) ℚ} (hK : K.det ≠ 0) :
    matInv K * K = 1 := by
  rw [matInv, Matrix.smul_mul, Matrix.adjugate_mul, smul_smul,
    inv_mul_cancel₀ hK, one_smul]

theorem image2world_world2image (K R : Matrix (Fin 3) (Fin 3) ℚ) (t : Fin 3 → ℚ)
    (s : ℚ) (p : Fin 3 → ℚ) (hK : K.det ≠ 0) (hR : R.transpose * R = 1) (hs : s ≠ 0)
    (hd : 0 < (world2image K R t s false p).2) :
    image2world K R t s (world2image K R t s false p).1 (world2image K R t s false p).2 = p := by
  have hc : camSpace K R t p 2 ≠ 0 := ne_of_gt hd
  have hc' : K.mulVec (R.mulVec p + t) 2 ≠ 0 := hc
  simp only [world2image, image2world, if_neg (Bool.false_ne_true),
    Matrix.cons_val_zero, Matrix.cons_val_one, Matrix.head_cons]
  have hvec : (![camSpace K R t p 0 / camSpace K R t p 2 / s * s,
      camSpace K R t p 1 / camSpace K R t p 2 / s * s, 1] : Fin 3 → ℚ) =
      (camSpace K R t p 2)⁻¹ • camSpace K R t p := by
    funext k
    fin_cases k <;>
      simp only [Matrix.cons_val_zero, Matrix.cons_val_one, Matrix.head_cons,
        Matrix.cons_val_two, Matrix.tail_cons, Pi.smul_apply, smul_eq_mul]
    · field_simp
      ring
    · field_simp
      ring
    · exact (inv_mul_cancel₀ hc).symm
  rw [hvec, Matrix.mulVec_smul, camSpace, Matrix.mulVec_mulVec, matInv_mul hK,
    Matrix.one_mulVec, smul_smul, mul_inv_cancel₀ hc', one_smul,
    add_sub_cancel_right, Matrix.mulVec_mulVec, hR, Matrix.one_mulVec]

theorem image2worldList_world2imageList (K R : Matrix (Fin 3) (Fin 3) ℚ) (t : Fin 3 → ℚ)
    (s : ℚ) (ps : List (Fin 3 → ℚ)) (hK : K.det ≠ 0) (hR : R.transpose * R = 1)
    (hs : s ≠ 0) (hd : ∀ p ∈ ps, 0 < (world2image K R t s false p).2) :
    image2worldList K R t s (world2imageList K R t s false ps).1
      (world2imageList K R t s false ps).2 = ps := by
  simp only [image2worldList, world2imageList, List.zip_map', List.map_map]
  have heq : ∀ p ∈ ps,
      ((fun ud : (Fin 2 → ℚ) × ℚ => image2world K R t s ud.1 ud.2) ∘
        fun q => ((world2image K R t s false q).1, (world2image K R t s false q).2)) p
        = p := fun p hp =>
    image2world_world2image K R t s p hK hR hs (hd p hp)
  rw [List.map_congr_left heq]
  exact List.map_id ps

theorem mem_acceptedResults {min_features : ℕ} {inputs : ExtractionInputs}
    {frame_pairs : List (ℕ × ℕ)} {fs : FeatureSet} :
    fs ∈ acceptedResults min_features inputs frame_pairs ↔
      ∃ p ∈ frame_pairs, pairResult min_features inputs p = some fs := by
  rw [acceptedResults, List.filterMap_map]
  simp [List.mem_filterMap]

theorem length_flatMap_congr {α β γ : Type} (l : List α) (f : α → List β) (g : α → List γ)
    (h : ∀ x ∈ l, (f x).length = (g x).length) :
    (l.flatMap f).length = (l.flatMap g).length := by
  rw [List.length_flatMap, List.length_flatMap]
  exact congrArg List.sum (List.map_congr_left h)

theorem zip_replicate_eq {α β : Type} (n : ℕ) (a : α) (b : β) :
    (List.replicate n a).zip (List.replicate n b) = List.replicate n (a, b) := by
  induction n with
  | zero => rfl
  | succ m ih => simp [List.replicate_succ, List.zip_cons_cons, ih]

theorem flatMap_congr {α β : Type} {l : List α} {f g : α → List β}
    (h : ∀ x ∈ l, f x = g x) : l.flatMap f = l.flatMap g := by
  induction l with
  | nil => rfl
  | cons x xs ih =>
    simp only [List.flatMap_cons]
    rw [h x (List.mem_cons_self x xs), ih fun y hy => h y (List.mem_cons_of_mem x hy)]

/-- C1 (counterexample): with a depth map whose values are all `-1`, the
extractor emits correspondences whose looked-up depths are not strictly
positive — the zero-depth check in `_filter_matches` does not discard them. -/
theorem C1_counterexample :
    (-1 : ℚ) ∈ (extractFeaturePoints 5 negativeDepthInputs [(0, 1)]).1.frame_i.depth ∧
    ¬ (0 : ℚ) < -1 := by
  have heval : (extractFeaturePoints 5 negativeDepthInputs [(0, 1)]).1.frame_i.depth
      = [-1, -1, -1, -1, -1] := by
    norm_num [extractFeaturePoints, pairResult, getImageFeatures, negativeDepthInputs,
      filterMatches, filterMatchesRansac, filterByMask, accumulateFeatureSets, pyround,
      List.filterMap_cons]
  rw [heval]
  norm_num

/-- C1 (amended): every correspondence included in a returned `FeatureSet`
has nonzero looked-up depth at both endpoints — `_filter_matches` discards a
match exactly when either depth is exactly zero, so negative depths survive
and strict positivity is not guaranteed. -/
theorem C1_emitted_depths_nonzero (min_features : ℕ) (inputs : ExtractionInputs)
    (frame_pairs : List (ℕ × ℕ)) :
    (∀ d ∈ (extractFeaturePoints min_features inputs frame_pairs).1.frame_i.depth, d ≠ 0) ∧
    (∀ d ∈ (extractFeaturePoints min_features inputs frame_pairs).1.frame_j.depth, d ≠ 0) := by
  obtain ⟨-, -, h3, -, -, h6, -⟩ :=
    accumulateFeatureSets_eq (frame_pairs.map (pairResult min_features inputs))
  constructor
  · intro d hd
    rw [extractFeaturePoints, h3] at hd
    obtain ⟨fs, hfs, hdfs⟩ := List.mem_flatMap.mp hd
    obtain ⟨p, hp, he⟩ := mem_acceptedResults.mp hfs
    obtain ⟨-, -, -, -, -, -, hne, -⟩ := getImageFeatures_some he
    exact hne d hdfs
  · intro d hd
    rw [extractFeaturePoints, h6] at hd
    obtain ⟨fs, hfs, hdfs⟩ := List.mem_flatMap.mp hd
    obtain ⟨p, hp, he⟩ := mem_acceptedResults.mp hfs
    obtain ⟨-, -, -, -, -, -, -, hne⟩ := getImageFeatures_some he
    exact hne d hdfs

/-- C2: the HIERARCHICAL mode returns exactly the pairs `(start, start + s)`
with `s = 2 ^ level` for `level` from 0 to `⌊log₂ (N − 1)⌋` and `start` a
multiple of `s`, excluding every pair with second index `≥ N` (and with no
duplicates); for `N = 9` the output includes `(0, 1)` and contains no pair
with second index `≥ 9`. -/
theorem C2_hierarchical_pairs (N : ℕ) (hN : 2 ≤ N) :
    (∀ a b : ℕ, (a, b) ∈ sampleFramePairs N .hierarchical ↔
      ∃ level ≤ Nat.log 2 (N - 1), ∃ k,
        a = k * 2 ^ level ∧ b = a + 2 ^ level ∧ b < N) ∧
    (sampleFramePairs N .hierarchical).Nodup ∧
    (0, 1) ∈ sampleFramePairs 9 .hierarchical ∧
    (∀ p ∈ sampleFramePairs 9 .hierarchical, p.2 < 9) := by
  refine ⟨fun a b => mem_sampleFramePairs_hierarchical,
    nodup_sampleFramePairs N .hierarchical, ?_, ?_⟩
  · exact mem_sampleFramePairs_hierarchical.mpr
      ⟨0, Nat.zero_le _, 0, by norm_num, by norm_num, by norm_num⟩
  · rintro ⟨a, b⟩ hp
    obtain ⟨level, -, k, -, -, hb⟩ := mem_sampleFramePairs_hierarchical.mp hp
    exact hb

theorem C2_witness : (0, 1) ∈ sampleFramePairs 9 .hierarchical :=
  (C2_hierarchical_pairs 9 (by norm_num)).2.2.1

/-- C3: composing `world2image` with `image2world` using the same `K`, `R`,
`t` and `scale_factor` recovers the original 3D points exactly over rational
arithmetic with non-integer output dtype, for every point set with strictly
positive recovered depth (with `K` invertible, `R` orthonormal and
`scale_factor` nonzero). -/
theorem C3_projection_round_trip (K R : Matrix (Fin 3) (Fin 3) ℚ) (t : Fin 3 → ℚ)
    (s : ℚ) (ps : List (Fin 3 → ℚ)) (hK : K.det ≠ 0) (hR : R.transpose * R = 1)
    (hs : s ≠ 0) (hd : ∀ p ∈ ps, 0 < (world2image K R t s false p).2) :
    image2worldList K R t s (world2imageList K R t s false ps).1
      (world2imageList K R t s false ps).2 = ps :=
  image2worldList_world2imageList K R t s ps hK hR hs hd

theorem C3_witness :
    image2worldList 1 1 0 1 (world2imageList 1 1 0 1 false [![1, 2, 3]]).1
      (world2imageList 1 1 0 1 false [![1, 2, 3]]).2 = [![1, 2, 3]] :=
  C3_projection_round_trip 1 1 0 1 [![1, 2, 3]] (by simp) (by simp) one_ne_zero
    (by
      intro p hp
      simp only [List.mem_singleton] at hp
      subst hp
      simp [world2image, camSpace, Matrix.one_mulVec])

/-- C4: the aggregator's coverage is the number of distinct frame indices on
either side of an accepted correspondence divided by the frame count, and the
contiguous-group count is the number of maximal runs of consecutive covered
indices scanned in order over `0..N−1`; covered frames `{0,1,2,5,6}` out of 8
give coverage `5/8` and 2 groups. -/
theorem C4_coverage_stats :
    (∀ (index_i index_j : List ℕ) (num_frames : ℕ),
      coverage index_i index_j num_frames =
        ((index_i ++ index_j).toFinset.card : ℚ) / (num_frames : ℚ)) ∧
    (∀ (covered : ℕ → Bool) (N : ℕ),
      (consecutiveGroups covered N).length =
        runCount false ((List.range N).map covered)) ∧
    printResultsStats [0, 1, 5] [2, 1, 6] 8 = (5 / 8, 2) := by
  refine ⟨fun ii ij n => ?_, consecutiveGroups_length, ?_⟩
  · rw [coverage, List.card_toFinset]
  · have h1 : (([0, 1, 5] ++ [2, 1, 6] : List ℕ)).dedup.length = 5 := by decide
    have h2 : (consecutiveGroups
        (fun k => decide (k ∈ ([0, 1, 5] : List ℕ) ++ [2, 1, 6])) 8).length = 2 := by decide
    simp only [printResultsStats, coverage, h1, h2]
    norm_num

/-- C5: for every frame count `N ≥ 2` and every supported sampling mode,
every emitted pair `(i, j)` satisfies `i < j`, and no pair occurs more than
once in the output sequence. -/
theorem C5_pairs_ordered_nodup (N : ℕ) (hN : 2 ≤ N) (mode : FrameSamplingMode) :
    (∀ p ∈ sampleFramePairs N mode, p.1 < p.2) ∧ (sampleFramePairs N mode).Nodup :=
  ⟨fst_lt_snd_sampleFramePairs mode, nodup_sampleFramePairs N mode⟩

theorem C5_witness : 2 ≤ 6 ∧ (sampleFramePairs 6 .hierarchical).Nodup :=
  ⟨by norm_num, (C5_pairs_ordered_nodup 6 (by norm_num) .hierarchical).2⟩

/-- C6: for every `N ≥ 2`, the EXHAUSTIVE mode yields exactly `N(N−1)/2`
pairs, all with `i < j`, without duplicates — exactly all unordered pairs
over `{0, …, N−1}`. -/
theorem C6_exhaustive_complete (N : ℕ) (hN : 2 ≤ N) :
    (sampleFramePairs N .exhaustive).length = N * (N - 1) / 2 ∧
    (∀ p ∈ sampleFramePairs N .exhaustive, p.1 < p.2) ∧
    (sampleFramePairs N .exhaustive).Nodup ∧
    (∀ a b : ℕ, (a, b) ∈ sampleFramePairs N .exhaustive ↔ a < b ∧ b < N) :=
  ⟨length_sampleFramePairs_exhaustive N, fst_lt_snd_sampleFramePairs .exhaustive,
    nodup_sampleFramePairs N .exhaustive, fun a b => mem_sampleFramePairs_exhaustive⟩

theorem C6_witness : 2 ≤ 5 ∧ (sampleFramePairs 5 .exhaustive).length = 5 * (5 - 1) / 2 :=
  ⟨by norm_num, (C6_exhaustive_complete 5 (by norm_num)).1⟩

/-- C7: the `FeatureSet` returned by `extract_feature_points` consists of six
parallel flat lists of equal length, and at every position the i-side and
j-side entries come from the same accepted correspondence of the same
accepted frame pair. -/
theorem C7_parallel_collections (min_features : ℕ) (inputs : ExtractionInputs)
    (frame_pairs : List (ℕ × ℕ)) :
    ((extractFeaturePoints min_features inputs frame_pairs).1.frame_i.index.length =
        (extractFeaturePoints min_features inputs frame_pairs).1.frame_i.points.length ∧
      (extractFeaturePoints min_features inputs frame_pairs).1.frame_i.depth.length =
        (extractFeaturePoints min_features inputs frame_pairs).1.frame_i.points.length ∧
      (extractFeaturePoints min_features inputs frame_pairs).1.frame_j.index.length =
        (extractFeaturePoints min_features inputs frame_pairs).1.frame_i.points.length ∧
      (extractFeaturePoints min_features inputs frame_pairs).1.frame_j.points.length =
        (extractFeaturePoints min_features inputs frame_pairs).1.frame_i.points.length ∧
      (extractFeaturePoints min_features inputs frame_pairs).1.frame_j.depth.length =
        (extractFeaturePoints min_features inputs frame_pairs).1.frame_i.points.length) ∧
    ((extractFeaturePoints min_features inputs frame_pairs).1.frame_i.points.zip
        (extractFeaturePoints min_features inputs frame_pairs).1.frame_j.points =
      (acceptedResults min_features inputs frame_pairs).flatMap
        (fun fs => fs.frame_i.points.zip fs.frame_j.points) ∧
      (extractFeaturePoints min_features inputs frame_pairs).1.frame_i.depth.zip
        (extractFeaturePoints min_features inputs frame_pairs).1.frame_j.depth =
      (acceptedResults min_features inputs frame_pairs).flatMap
        (fun fs => fs.frame_i.depth.zip fs.frame_j.depth) ∧
      (extractFeaturePoints min_features inputs frame_pairs).1.frame_i.index.zip
        (extractFeaturePoints min_features inputs frame_pairs).1.frame_j.index =
      (acceptedResults min_features inputs frame_pairs).flatMap
        (fun fs => List.replicate fs.frame_i.points.length
          (fs.frame_i.index, fs.frame_j.index))) ∧
    (∀ fs ∈ acceptedResults min_features inputs frame_pairs,
      ∃ p ∈ frame_pairs, pairResult min_features inputs p = some fs ∧
        fs.frame_i.index = p.1 ∧ fs.frame_j.index = p.2) := by
  obtain ⟨h1, h2, h3, h4, h5, h6, -⟩ :=
    accumulateFeatureSets_eq (frame_pairs.map (pairResult min_features inputs))
  have hmem : ∀ fs ∈ acceptedResults min_features inputs frame_pairs,
      fs.frame_j.points.length = fs.frame_i.points.length ∧
      fs.frame_i.depth.length = fs.frame_i.points.length ∧
      fs.frame_j.depth.length = fs.frame_i.points.length := by
    intro fs hfs
    obtain ⟨p, hp, he⟩ := mem_acceptedResults.mp hfs
    obtain ⟨-, -, e1, e2, e3, -, -, -⟩ := getImageFeatures_some he
    exact ⟨e1, e2, e3⟩
  refine ⟨⟨?_, ?_, ?_, ?_, ?_⟩, ⟨?_, ?_, ?_⟩, ?_⟩
  · rw [extractFeaturePoints, h1, h2]
    exact length_flatMap_congr _ _ _ fun fs _ => by simp
  · rw [extractFeaturePoints, h3, h2]
    exact length_flatMap_congr _ _ _ fun fs hfs => (hmem fs hfs).2.1
  · rw [extractFeaturePoints, h4, h2]
    exact length_flatMap_congr _ _ _ fun fs _ => by simp
  · rw [extractFeaturePoints, h5, h2]
    exact length_flatMap_congr _ _ _ fun fs hfs => (hmem fs hfs).1
  · rw [extractFeaturePoints, h6, h2]
    exact length_flatMap_congr _ _ _ fun fs hfs => (hmem fs hfs).2.2
  · rw [extractFeaturePoints, h2, h5]
    exact zip_flatMap_eq _ _ _ fun fs hfs => ((hmem fs hfs).1).symm
  · rw [extractFeaturePoints, h3, h6]
    refine (zip_flatMap_eq _ _ _ fun fs hfs => ?_).trans
      (flatMap_congr fun fs hfs => rfl)
    rw [(hmem fs hfs).2.1, (hmem fs hfs).2.2]
  · rw [extractFeaturePoints, h1, h4]
    exact (zip_flatMap_eq _ _ _ fun fs _ => by simp).trans
      (flatMap_congr fun fs _ => zip_replicate_eq _ _ _)
  · intro fs hfs
    obtain ⟨p, hp, he⟩ := mem_acceptedResults.mp hfs
    obtain ⟨e1, e2, -, -, -, -, -, -⟩ := getImageFeatures_some he
    exact ⟨p, hp, he, e1, e2⟩

/-- C8: in the ratio-filter stage a candidate match is kept for further
processing exactly when `distance(best) ≤ 0.7 × distance(secondBest)` and the
depth validation passes; `0.7` appears as a literal constant, not as
configuration. -/
theorem C8_ratio_filter (dI dJ : ℤ → ℤ → ℚ) (kI kJ : List (ℚ × ℚ))
    (ms : List (DMatch × DMatch)) :
    (filterMatches dI dJ kI kJ ms).points_i =
      (ms.filter (keepMatch dI dJ kI kJ)).map (fun mn => kI.getD mn.1.queryIdx (0, 0)) ∧
    (filterMatches dI dJ kI kJ ms).points_j =
      (ms.filter (keepMatch dI dJ kI kJ)).map (fun mn => kJ.getD mn.1.trainIdx (0, 0)) ∧
    (filterMatches dI dJ kI kJ ms).depth_i =
      (ms.filter (keepMatch dI dJ kI kJ)).map (fun mn =>
        dI (pyround (kI.getD mn.1.queryIdx (0, 0)).2)
           (pyround (kI.getD mn.1.queryIdx (0, 0)).1)) ∧
    (filterMatches dI dJ kI kJ ms).depth_j =
      (ms.filter (keepMatch dI dJ kI kJ)).map (fun mn =>
        dJ (pyround (kJ.getD mn.1.trainIdx (0, 0)).2)
           (pyround (kJ.getD mn.1.trainIdx (0, 0)).1)) ∧
    (∀ mn : DMatch × DMatch, keepMatch dI dJ kI kJ mn = true ↔
      (mn.1.distance ≤ 7 / 10 * mn.2.distance ∧
       dI (pyround (kI.getD mn.1.queryIdx (0, 0)).2)
          (pyround (kI.getD mn.1.queryIdx (0, 0)).1) ≠ 0 ∧
       dJ (pyround (kJ.getD mn.1.trainIdx (0, 0)).2)
          (pyround (kJ.getD mn.1.trainIdx (0, 0)).1) ≠ 0)) := by
  obtain ⟨h1, h2, h3, h4⟩ := filterMatches_eq_filter dI dJ kI kJ ms
  exact ⟨h1, h2, h3, h4, fun mn => by simp [keepMatch]⟩

/-- C9: when the smaller keypoint count is below `min_features`, the pair is
rejected with the no-result signal `None` whatever the matcher would return,
and the accumulation loop skips `None` results and continues with the rest. -/
theorem C9_min_keypoints_short_circuit (min_features : ℕ) (dI dJ : ℤ → ℤ → ℚ)
    (kI kJ : List (ℚ × ℚ)) (i j : ℕ)
    (h : min kI.length kJ.length < min_features) :
    (∀ (ms : List (DMatch × DMatch)) (mask : List Bool),
      getImageFeatures min_features dI dJ kI kJ ms mask i j = none) ∧
    (∀ rest : List (Option FeatureSet),
      accumulateFeatureSets (none :: rest) = accumulateFeatureSets rest) :=
  ⟨fun ms mask => by simp [getImageFeatures, h], fun rest => rfl⟩

theorem C9_witness :
    min ([] : List (ℚ × ℚ)).length ([] : List (ℚ × ℚ)).length < 5 ∧
    getImageFeatures 5 (fun _ _ => 0) (fun _ _ => 0) [] [] [] [] 0 1 = none :=
  ⟨by norm_num,
    (C9_min_keypoints_short_circuit 5 (fun _ _ => 0) (fun _ _ => 0) [] [] 0 1
      (by norm_num)).1 [] []⟩

/-- C10: construction with `min_features < 5`, or with `max_features` set and
`max_features ≤ min_features`, fails with the configuration error; a
successful construction stores the inputs unmodified (never clamped), so the
stored values always satisfy the constraints. -/
theorem C10_constructor_validation (min_features : ℤ) (max_features : Option ℤ) :
    (min_features < 5 →
      ∃ e, mkFeatureExtractor min_features max_features = .error e) ∧
    (∀ mf, max_features = some mf → mf ≤ min_features →
      ∃ e, mkFeatureExtractor min_features max_features = .error e) ∧
    (∀ cfg, mkFeatureExtractor min_features max_features = .ok cfg →
      cfg.min_features = min_features ∧ cfg.max_features = max_features ∧
      5 ≤ min_features ∧ ∀ mf, max_features = some mf → min_features < mf) := by
  refine ⟨?_, ?_, ?_⟩
  · intro h
    exact ⟨"min_features must be a positive integer that is at least 5",
      by simp [mkFeatureExtractor, h]⟩
  · rintro mf rfl hle
    by_cases h5 : min_features < 5
    · exact ⟨"min_features must be a positive integer that is at least 5",
        by simp [mkFeatureExtractor, h5]⟩
    · exact ⟨"max_features must be a positive integer greater than min_features",
        by simp [mkFeatureExtractor, h5, hle]⟩
  · intro cfg hcfg
    simp only [mkFeatureExtractor] at hcfg
    split at hcfg
    · exact absurd hcfg (by simp)
    · rename_i h5
      split at hcfg
      · rename_i mf hm
        split at hcfg
        · exact absurd hcfg (by simp)
        · rename_i hgt
          cases Except.ok.inj hcfg
          refine ⟨rfl, rfl, by omega, ?_⟩
          rintro mf' h'
          cases Option.some.inj h'
          omega
      · cases Except.ok.inj hcfg
        exact ⟨rfl, rfl, by omega, fun mf' h' => absurd h' (by simp)⟩

theorem C10_witness :
    (3 : ℤ) < 5 ∧ ∃ e, mkFeatureExtractor 3 none = .error e :=
  ⟨by norm_num, (C10_constructor_validation 3 none).1 (by norm_num)⟩

end Video2mesh
